import Mathlib

/-!
A shallow embedding of the dual-pane state navigator of `src/src/main.rs`
(the `StatefulList` struct and the value-resolution logic of `ui`).

Modelling conventions:
* The contract's state (`contract.state`, an ordered string-keyed mapping to
  `ItemOrMap` values) is an association list `List (String × ItemOrMap)`;
  `stateGet` mirrors `contract.state.get`, returning the first binding.
* Rust panics (`unwrap` on `None`, out-of-bounds indexing, and `usize`
  subtraction underflow, which is a checked panic in debug builds) are
  modelled as `none` in an `Option` result.
* `ListState.selected()` is an `Option Nat`; `select` is a field update.
-/

/-- The `ItemOrMap` value variant consumed by `main.rs`: a scalar string, or an
ordered string-to-string mapping (the code reads `map.keys()` and
`map.get(k)` where the result is displayed directly as a string). -/
inductive ItemOrMap where
  | item (value : String)
  | map (entries : List (String × String))
deriving DecidableEq, Repr

/-- `contract.state.get(key)`: first binding for `key` in the ordered map. -/
def stateGet (st : List (String × ItemOrMap)) (key : String) : Option ItemOrMap :=
  match st with
  | [] => none
  | (k, v) :: rest => if k = key then some v else stateGet rest key

/-- `map.get(key)` on an `ItemOrMap::Map`'s entries. -/
def mapGet (entries : List (String × String)) (key : String) : Option String :=
  match entries with
  | [] => none
  | (k, v) :: rest => if k = key then some v else mapGet rest key

/-- `contract.state.keys()` in insertion order. -/
def stateKeys (st : List (String × ItemOrMap)) : List String :=
  st.map Prod.fst

/-- `ListType`: which pane currently has focus. -/
inductive ListType where
  | StateKeyList
  | MapKeyList
deriving DecidableEq, Repr

/-- The navigator state of `StatefulList` (the borrowed `contract` is passed
separately to each operation). `state`/`second_state` are the `selected()`
components of the two `ListState`s. -/
structure StatefulList where
  state : Option Nat
  items : List String
  second_state : Option Nat
  second_items : List String
  current_list : ListType
deriving DecidableEq, Repr

/-- `StatefulList::update_second_list`: looks up the value at the currently
selected primary key (unwrap-panics if no selection, the index is out of
bounds, or the key is absent); a `Map` sets `second_items` to its keys and
selects `Some(0)`, anything else clears selection and list. -/
def update_second_list (contract : List (String × ItemOrMap)) (s : StatefulList) :
    Option StatefulList := do
  let sel ← s.state
  let key ← s.items.get? sel
  let value ← stateGet contract key
  match value with
  | ItemOrMap.map m =>
      pure { s with second_items := m.map Prod.fst, second_state := some 0 }
  | ItemOrMap.item _ =>
      pure { s with second_state := none, second_items := [] }

/-- `StatefulList::with_items`: selects `Some(0)` on the primary list and
recomputes the secondary list, unconditionally. -/
def with_items (contract : List (String × ItemOrMap)) (items : List String) :
    Option StatefulList :=
  update_second_list contract
    { state := some 0
      items := items
      second_state := none
      second_items := []
      current_list := ListType.StateKeyList }

/-- `App::new`: builds the navigator over the contract's top-level keys. -/
def app_new (contract : List (String × ItemOrMap)) : Option StatefulList :=
  with_items contract (stateKeys contract)

/-- `usize` subtraction with the debug-build underflow panic. -/
def usizeSub (a b : Nat) : Option Nat :=
  if b ≤ a then some (a - b) else none

/-- `StatefulList::next`: advances the focused cursor with wraparound; an
empty focused list clears the selection; a primary move refreshes the
secondary list. -/
def next (contract : List (String × ItemOrMap)) (s : StatefulList) :
    Option StatefulList :=
  match s.current_list with
  | ListType.StateKeyList =>
      let listLen := s.items.length
      if listLen = 0 then
        some { s with state := none }
      else
        let i := match s.state with
          | some i => if listLen - 1 ≤ i then 0 else i + 1
          | none => 0
        update_second_list contract { s with state := some i }
  | ListType.MapKeyList =>
      let listLen := s.second_items.length
      if listLen = 0 then
        some { s with second_state := none }
      else
        let i := match s.second_state with
          | some i => if listLen - 1 ≤ i then 0 else i + 1
          | none => 0
        some { s with second_state := some i }

/-- `StatefulList::previous`: moves the focused cursor back with wraparound.
Unlike `next` there is no empty-list guard, so `list_len - 1` underflows
(panics) on an empty focused list with a selection present; a primary move
refreshes the secondary list. -/
def previous (contract : List (String × ItemOrMap)) (s : StatefulList) :
    Option StatefulList :=
  match s.current_list with
  | ListType.StateKeyList => do
      let listLen := s.items.length
      let i ← match s.state with
        | some i => if i = 0 then usizeSub listLen 1 else some (i - 1)
        | none => some 0
      update_second_list contract { s with state := some i }
  | ListType.MapKeyList => do
      let listLen := s.second_items.length
      let i ← match s.second_state with
        | some i => if i = 0 then usizeSub listLen 1 else some (i - 1)
        | none => some 0
      pure { s with second_state := some i }

/-- `StatefulList::go_right`: focus moves to the secondary pane only from the
primary pane and only when the secondary list is non-empty. -/
def go_right (s : StatefulList) : StatefulList :=
  if s.current_list = ListType.StateKeyList ∧ s.second_items ≠ [] then
    { s with current_list := ListType.MapKeyList }
  else s

/-- `StatefulList::go_left`: focus returns to the primary pane. -/
def go_left (s : StatefulList) : StatefulList :=
  if s.current_list = ListType.MapKeyList then
    { s with current_list := ListType.StateKeyList }
  else s

/-- The "State Value" paragraph of `ui`: the resolved display value. `none`
models a panic (`unwrap` failure or out-of-bounds index). -/
def resolved_value (contract : List (String × ItemOrMap)) (s : StatefulList) :
    Option String :=
  match s.state with
  | none => some "NO KEY SELECTED"
  | some idx => do
      let key ← s.items.get? idx
      let value ← stateGet contract key
      match value with
      | ItemOrMap.item v => pure v
      | ItemOrMap.map m => do
          let j ← s.second_state
          let k2 ← s.second_items.get? j
          mapGet m k2

/-- The four navigation commands delivered by the event loop of `run_app`
(`Down`, `Up`, `Left`, `Right`). -/
inductive Command where
  | moveNext
  | movePrevious
  | moveLeft
  | moveRight
deriving DecidableEq, Repr

/-- One keypress dispatch of `run_app`. -/
def step (contract : List (String × ItemOrMap)) (c : Command) (s : StatefulList) :
    Option StatefulList :=
  match c with
  | Command.moveNext => next contract s
  | Command.movePrevious => previous contract s
  | Command.moveLeft => some (go_left s)
  | Command.moveRight => some (go_right s)

/-- Navigator states reachable from construction by the four commands
(successful, non-panicking executions only). -/
inductive Reachable (contract : List (String × ItemOrMap)) : StatefulList → Prop where
  | init : ∀ s, app_new contract = some s → Reachable contract s
  | step : ∀ c s t, Reachable contract s → step contract c s = some t →
      Reachable contract t

/-- The cursor of the focused pane. -/
def focusedCursor (s : StatefulList) : Option Nat :=
  match s.current_list with
  | ListType.StateKeyList => s.state
  | ListType.MapKeyList => s.second_state

/-- The length of the focused pane's list. -/
def focusedLen (s : StatefulList) : Nat :=
  match s.current_list with
  | ListType.StateKeyList => s.items.length
  | ListType.MapKeyList => s.second_items.length

/-- `n` repeated `next` commands, stopping at the first panic. -/
def nextN (contract : List (String × ItemOrMap)) : Nat → StatefulList →
    Option StatefulList
  | 0, s => some s
  | n + 1, s => (next contract s).bind (nextN contract n)

/-- Invariant maintained by every successful operation from construction:
the primary list is exactly the contract's key list, the primary cursor is
present and in range, a non-empty secondary list always carries an in-range
selection, and secondary focus implies a non-empty secondary list. -/
def NavInv (contract : List (String × ItemOrMap)) (s : StatefulList) : Prop :=
  s.items = stateKeys contract ∧
  (∃ i, s.state = some i ∧ i < s.items.length) ∧
  (s.second_items ≠ [] → ∃ j, s.second_state = some j ∧ j < s.second_items.length) ∧
  (s.current_list = ListType.MapKeyList → s.second_items ≠ [])

/-- A stored value that is not an empty `Map`. -/
def entryNonEmptyMap : ItemOrMap → Prop
  | ItemOrMap.map m => m ≠ []
  | ItemOrMap.item _ => True

instance : DecidablePred entryNonEmptyMap := fun v =>
  match v with
  | ItemOrMap.map m => decidable_of_iff (m ≠ []) (by simp [entryNonEmptyMap])
  | ItemOrMap.item _ => decidable_of_iff True (by simp [entryNonEmptyMap])

/-- Side condition for the index invariant: no value stored in the contract
state is a `Map` with zero entries. -/
def NoEmptyMaps (contract : List (String × ItemOrMap)) : Prop :=
  ∀ p ∈ contract, entryNonEmptyMap p.2

instance (contract : List (String × ItemOrMap)) : Decidable (NoEmptyMaps contract) :=
  decidable_of_iff (∀ p ∈ contract, entryNonEmptyMap p.2) Iff.rfl

/-- The worked example tree of the specification:
`{"x": {"a": "1", "b": "2"}, "y": "leaf"}`. -/
def cTest : List (String × ItemOrMap) :=
  [("x", ItemOrMap.map [("a", "1"), ("b", "2")]), ("y", ItemOrMap.item "leaf")]

/-- The navigator state produced by constructing over `cTest`. -/
def sTest : StatefulList :=
  { state := some 0
    items := ["x", "y"]
    second_state := some 0
    second_items := ["a", "b"]
    current_list := ListType.StateKeyList }

/-- `sTest` after `go_right`: secondary pane focused. -/
def sMap : StatefulList :=
  { sTest with current_list := ListType.MapKeyList }

/-- `sMap` after one `next` in the secondary pane. -/
def sMapNext : StatefulList :=
  { sMap with second_state := some 1 }

/-- A contract whose only top-level value is a `Map` with zero entries. -/
def cEmptyMap : List (String × ItemOrMap) :=
  [("x", ItemOrMap.map [])]

/-- The navigator state produced by constructing over `cEmptyMap`: the
secondary list is empty yet its selection is `Some 0`. -/
def sEmptyMap : StatefulList :=
  { state := some 0
    items := ["x"]
    second_state := some 0
    second_items := []
    current_list := ListType.StateKeyList }

/-- An empty navigator state with secondary focus and no secondary
selection (the `move_previous` empty-list edge case). -/
def sC1a : StatefulList :=
  { state := none
    items := []
    second_state := none
    second_items := []
    current_list := ListType.MapKeyList }

/-- An empty navigator state with secondary focus and a (stale) secondary
selection `Some 0`. -/
def sC1b : StatefulList :=
  { sC1a with second_state := some 0 }

/-- An empty navigator state with primary focus and no selection. -/
def sC1c : StatefulList :=
  { sC1a with current_list := ListType.StateKeyList }

/-! ## Structural lemmas -/

example : stateGet [("x", ItemOrMap.item "1")] "x" = some (ItemOrMap.item "1") := by decide
example : app_new [] = none := by decide

theorem stateGet_isSome_of_mem {st : List (String × ItemOrMap)} {k : String}
    (h : k ∈ stateKeys st) : (stateGet st k).isSome := by
  induction st with
  | nil => simp [stateKeys] at h
  | cons p rest ih =>
      simp only [stateKeys, List.map_cons, List.mem_cons] at h
      by_cases hk : p.1 = k
      · simp [stateGet, hk]
      · rcases h with h | h
        · exact absurd h.symm hk
        · simpa [stateGet, hk] using ih (by simpa [stateKeys] using h)

/-- Unfolding characterization of a successful `update_second_list`. -/
theorem update_second_list_eq {contract : List (String × ItemOrMap)}
    {s t : StatefulList} (h : update_second_list contract s = some t) :
    ∃ i key value, s.state = some i ∧ s.items.get? i = some key ∧
      stateGet contract key = some value ∧
      t.state = s.state ∧ t.items = s.items ∧ t.current_list = s.current_list ∧
      ((∃ m, value = ItemOrMap.map m ∧
          t.second_items = m.map Prod.fst ∧ t.second_state = some 0) ∨
       (∃ v, value = ItemOrMap.item v ∧
          t.second_items = [] ∧ t.second_state = none)) := by
  simp only [update_second_list, Option.bind_eq_bind, Option.bind_eq_some] at h
  obtain ⟨i, hsel, key, hkey, value, hval, h⟩ := h
  refine ⟨i, key, value, hsel, hkey, hval, ?_⟩
  cases value with
  | map m =>
      simp only [pure, Option.some.injEq] at h
      subst h
      exact ⟨rfl, rfl, rfl, Or.inl ⟨m, rfl, rfl, rfl⟩⟩
  | item v =>
      simp only [pure, Option.some.injEq] at h
      subst h
      exact ⟨rfl, rfl, rfl, Or.inr ⟨v, rfl, rfl, rfl⟩⟩

/-- `update_second_list` succeeds whenever the selected key resolves. -/
theorem update_second_list_isSome {contract : List (String × ItemOrMap)}
    {s : StatefulList} {i : Nat} {key : String}
    (hsel : s.state = some i) (hkey : s.items.get? i = some key)
    (hval : (stateGet contract key).isSome) :
    (update_second_list contract s).isSome := by
  rcases Option.isSome_iff_exists.mp hval with ⟨value, hv⟩
  rw [List.get?_eq_getElem?] at hkey
  cases value with
  | map m => simp [update_second_list, Option.bind_eq_some, hsel, hkey, hv]
  | item v => simp [update_second_list, Option.bind_eq_some, hsel, hkey, hv]

/-! ## The reachable-state invariant -/

theorem navInv_of_update_second_list {contract : List (String × ItemOrMap)}
    {s t : StatefulList} (h : update_second_list contract s = some t)
    (hitems : s.items = stateKeys contract)
    (hfocus : t.current_list = ListType.MapKeyList → t.second_items ≠ []) :
    NavInv contract t := by
  obtain ⟨i, key, value, hsel, hkey, _, hst, hit, _, hcase⟩ := update_second_list_eq h
  refine ⟨hit.trans hitems, ⟨i, hst.trans hsel, ?_⟩, ?_, hfocus⟩
  · rw [hit]
    exact List.get?_eq_some.mp hkey |>.1
  · rcases hcase with ⟨m, _, hsi, hss⟩ | ⟨v, _, hsi, hss⟩
    · intro hne
      rw [hsi] at hne ⊢
      rw [hss]
      exact ⟨0, rfl, List.length_pos.mpr hne⟩
    · intro hne
      exact absurd hsi hne

/-- Under the invariant, the focused pane always has a selection, in range. -/
theorem navInv_focusedCursor {contract : List (String × ItemOrMap)}
    {s : StatefulList} (h : NavInv contract s) :
    ∃ i, focusedCursor s = some i ∧ i < focusedLen s := by
  obtain ⟨_, ⟨i, hsel, hlt⟩, hsecond, hfocus⟩ := h
  cases hcl : s.current_list with
  | StateKeyList => exact ⟨i, by simpa [focusedCursor, hcl] using hsel, by
      simpa [focusedLen, hcl] using hlt⟩
  | MapKeyList =>
      obtain ⟨j, hj, hjlt⟩ := hsecond (hfocus hcl)
      exact ⟨j, by simpa [focusedCursor, hcl] using hj, by
        simpa [focusedLen, hcl] using hjlt⟩

/-- A key drawn from the primary list (the contract's key list) resolves. -/
theorem items_key_resolves {contract : List (String × ItemOrMap)}
    {items : List String} {i : Nat}
    (hitems : items = stateKeys contract) (hlt : i < items.length) :
    ∃ key, items.get? i = some key ∧ (stateGet contract key).isSome := by
  have hkey : items.get? i = some (items.get ⟨i, hlt⟩) := List.get?_eq_get hlt
  exact ⟨items.get ⟨i, hlt⟩, hkey,
    stateGet_isSome_of_mem (hitems ▸ List.get?_mem hkey)⟩

/-- Successful-step characterization of `next` under the invariant: it never
panics, keeps focus and focused-list length, and advances the focused cursor
to `(i + 1) % n`. -/
theorem next_spec {contract : List (String × ItemOrMap)} {s : StatefulList}
    {i : Nat} (hinv : NavInv contract s) (hcur : focusedCursor s = some i)
    (hlt : i < focusedLen s) :
    ∃ t, next contract s = some t ∧ NavInv contract t ∧
      t.current_list = s.current_list ∧ focusedLen t = focusedLen s ∧
      focusedCursor t = some ((i + 1) % focusedLen s) := by
  obtain ⟨hitems, ⟨i0, hsel, hi0⟩, hsecond, hfocus⟩ := hinv
  cases hcl : s.current_list with
  | StateKeyList =>
      simp only [focusedCursor, hcl] at hcur
      simp only [focusedLen, hcl] at hlt ⊢
      have hpos : 0 < s.items.length := Nat.lt_of_le_of_lt (Nat.zero_le i) hlt
      have hne : s.items.length ≠ 0 := Nat.pos_iff_ne_zero.mp hpos
      have hi'lt : (if s.items.length - 1 ≤ i then 0 else i + 1) < s.items.length := by
        split
        · exact hpos
        · omega
      have hi'mod : (if s.items.length - 1 ≤ i then 0 else i + 1) =
          (i + 1) % s.items.length := by
        split
        · have hie : i = s.items.length - 1 := by omega
          subst hie
          rw [Nat.sub_add_cancel hpos]
          exact (Nat.mod_self _).symm
        · rw [Nat.mod_eq_of_lt (by omega)]
      obtain ⟨key, hkey, hres⟩ :=
        @items_key_resolves contract s.items _ hitems hi'lt
      have hupd : (update_second_list contract
          { s with state := some (if s.items.length - 1 ≤ i then 0 else i + 1) }).isSome :=
        update_second_list_isSome rfl hkey hres
      obtain ⟨t, ht⟩ := Option.isSome_iff_exists.mp hupd
      obtain ⟨_, _, _, _, _, _, hst, hit, hclt, _⟩ := update_second_list_eq ht
      have hnextt : next contract s = some t := by
        simp only [next, hcl, if_neg hne, hcur]
        exact hcl ▸ ht
      have htinv : NavInv contract t :=
        navInv_of_update_second_list ht hitems (by
          intro hmap
          rw [hclt] at hmap
          simp [hcl] at hmap)
      refine ⟨t, hnextt, htinv, by simp [hclt, hcl], ?_, ?_⟩
      · simp only [focusedLen, hclt, hcl, hit]
      · simp only [focusedCursor, hclt, hcl, hst]
        rw [hi'mod]
  | MapKeyList =>
      simp only [focusedCursor, hcl] at hcur
      simp only [focusedLen, hcl] at hlt ⊢
      have hpos : 0 < s.second_items.length := Nat.lt_of_le_of_lt (Nat.zero_le i) hlt
      have hne : s.second_items.length ≠ 0 := Nat.pos_iff_ne_zero.mp hpos
      have hi'lt : (if s.second_items.length - 1 ≤ i then 0 else i + 1) <
          s.second_items.length := by
        split
        · exact hpos
        · omega
      have hi'mod : (if s.second_items.length - 1 ≤ i then 0 else i + 1) =
          (i + 1) % s.second_items.length := by
        split
        · have hie : i = s.second_items.length - 1 := by omega
          subst hie
          rw [Nat.sub_add_cancel hpos]
          exact (Nat.mod_self _).symm
        · rw [Nat.mod_eq_of_lt (by omega)]
      refine ⟨{ s with second_state := some (if s.second_items.length - 1 ≤ i then 0 else i + 1) }, ?_, ?_, ?_, ?_, ?_⟩
      · simp only [next, hcl, if_neg hne, hcur]
      · exact ⟨hitems, ⟨i0, hsel, hi0⟩, fun _ => ⟨_, rfl, hi'lt⟩, fun _ => hfocus hcl⟩
      · exact hcl
      · simp [focusedLen, hcl]
      · simp only [focusedCursor, hcl]
        rw [hi'mod]

/-- Successful-step characterization of `previous` under the invariant: it
never panics, keeps focus and focused-list length, and moves the focused
cursor back with wraparound. -/
theorem previous_spec {contract : List (String × ItemOrMap)} {s : StatefulList}
    {i : Nat} (hinv : NavInv contract s) (hcur : focusedCursor s = some i)
    (hlt : i < focusedLen s) :
    ∃ t, previous contract s = some t ∧ NavInv contract t ∧
      t.current_list = s.current_list ∧ focusedLen t = focusedLen s ∧
      focusedCursor t = some (if i = 0 then focusedLen s - 1 else i - 1) := by
  obtain ⟨hitems, ⟨i0, hsel, hi0⟩, hsecond, hfocus⟩ := hinv
  cases hcl : s.current_list with
  | StateKeyList =>
      simp only [focusedCursor, hcl] at hcur
      simp only [focusedLen, hcl] at hlt ⊢
      have hpos : 0 < s.items.length := Nat.lt_of_le_of_lt (Nat.zero_le i) hlt
      have hbind : (if i = 0 then usizeSub s.items.length 1 else some (i - 1)) =
          some (if i = 0 then s.items.length - 1 else i - 1) := by
        have h1 : 1 ≤ s.items.length := hpos
        by_cases hi : i = 0
        · rw [if_pos hi, if_pos hi, usizeSub, if_pos h1]
        · rw [if_neg hi, if_neg hi]
      have hi'lt : (if i = 0 then s.items.length - 1 else i - 1) < s.items.length := by
        split <;> omega
      obtain ⟨key, hkey, hres⟩ :=
        @items_key_resolves contract s.items _ hitems hi'lt
      have hupd : (update_second_list contract
          { s with state := some (if i = 0 then s.items.length - 1 else i - 1) }).isSome :=
        update_second_list_isSome rfl hkey hres
      obtain ⟨t, ht⟩ := Option.isSome_iff_exists.mp hupd
      obtain ⟨_, _, _, _, _, _, hst, hit, hclt, _⟩ := update_second_list_eq ht
      have hstep1 : previous contract s =
          (if i = 0 then usizeSub s.items.length 1 else some (i - 1)).bind
            (fun k => update_second_list contract { s with state := some k }) := by
        simp only [previous, hcl, hcur, Option.bind_eq_bind]
        by_cases hi : i = 0
        · simp only [if_pos hi]
        · simp only [if_neg hi]
      have hprevt : previous contract s = some t := by
        rw [hstep1, hbind]
        exact ht
      have htinv : NavInv contract t :=
        navInv_of_update_second_list ht hitems (by
          intro hmap
          rw [hclt] at hmap
          simp [hcl] at hmap)
      refine ⟨t, hprevt, htinv, by simp [hclt, hcl], ?_, ?_⟩
      · simp only [focusedLen, hclt, hcl, hit]
      · simp only [focusedCursor, hclt, hcl, hst]
  | MapKeyList =>
      simp only [focusedCursor, hcl] at hcur
      simp only [focusedLen, hcl] at hlt ⊢
      have hpos : 0 < s.second_items.length := Nat.lt_of_le_of_lt (Nat.zero_le i) hlt
      have hbind : (if i = 0 then usizeSub s.second_items.length 1 else some (i - 1)) =
          some (if i = 0 then s.second_items.length - 1 else i - 1) := by
        have h1 : 1 ≤ s.second_items.length := hpos
        by_cases hi : i = 0
        · rw [if_pos hi, if_pos hi, usizeSub, if_pos h1]
        · rw [if_neg hi, if_neg hi]
      have hi'lt : (if i = 0 then s.second_items.length - 1 else i - 1) <
          s.second_items.length := by
        split <;> omega
      have hstep1 : previous contract s =
          (if i = 0 then usizeSub s.second_items.length 1 else some (i - 1)).bind
            (fun k => some { s with second_state := some k }) := by
        simp only [previous, hcl, hcur, Option.bind_eq_bind]
        by_cases hi : i = 0
        · simp only [if_pos hi]
          rfl
        · simp only [if_neg hi]
          rfl
      refine ⟨{ s with second_state := some (if i = 0 then s.second_items.length - 1 else i - 1) }, ?_, ?_, ?_, ?_, ?_⟩
      · rw [hstep1, hbind]
        rfl
      · exact ⟨hitems, ⟨i0, hsel, hi0⟩, fun _ => ⟨_, rfl, hi'lt⟩, fun _ => hfocus hcl⟩
      · exact hcl
      · simp [focusedLen, hcl]
      · simp [focusedCursor, hcl]

/-- A successful construction establishes the invariant. -/
theorem navInv_init {contract : List (String × ItemOrMap)} {s : StatefulList}
    (h : app_new contract = some s) : NavInv contract s := by
  have h' : update_second_list contract
      { state := some 0, items := stateKeys contract, second_state := none,
        second_items := [], current_list := ListType.StateKeyList } = some s := h
  obtain ⟨_, _, _, _, _, _, _, _, hclt, _⟩ := update_second_list_eq h'
  refine navInv_of_update_second_list h' rfl ?_
  intro hmap
  rw [hclt] at hmap
  simp at hmap

/-- `next` preserves the invariant. -/
theorem navInv_next {contract : List (String × ItemOrMap)} {s t : StatefulList}
    (hinv : NavInv contract s) (h : next contract s = some t) :
    NavInv contract t := by
  obtain ⟨i, hcur, hlt⟩ := navInv_focusedCursor hinv
  obtain ⟨t', ht', htinv, _⟩ := next_spec hinv hcur hlt
  rw [h] at ht'
  rw [Option.some.inj ht']
  exact htinv

/-- `previous` preserves the invariant. -/
theorem navInv_previous {contract : List (String × ItemOrMap)} {s t : StatefulList}
    (hinv : NavInv contract s) (h : previous contract s = some t) :
    NavInv contract t := by
  obtain ⟨i, hcur, hlt⟩ := navInv_focusedCursor hinv
  obtain ⟨t', ht', htinv, _⟩ := previous_spec hinv hcur hlt
  rw [h] at ht'
  rw [Option.some.inj ht']
  exact htinv

/-- `go_right` preserves the invariant. -/
theorem navInv_go_right {contract : List (String × ItemOrMap)} {s : StatefulList}
    (hinv : NavInv contract s) : NavInv contract (go_right s) := by
  obtain ⟨hitems, hstate, hsecond, hfocus⟩ := hinv
  unfold go_right
  split
  · rename_i hc
    exact ⟨hitems, hstate, hsecond, fun _ => hc.2⟩
  · exact ⟨hitems, hstate, hsecond, hfocus⟩

/-- `go_left` preserves the invariant. -/
theorem navInv_go_left {contract : List (String × ItemOrMap)} {s : StatefulList}
    (hinv : NavInv contract s) : NavInv contract (go_left s) := by
  obtain ⟨hitems, hstate, hsecond, hfocus⟩ := hinv
  unfold go_left
  split
  · refine ⟨hitems, hstate, hsecond, ?_⟩
    intro hmap
    simp at hmap
  · exact ⟨hitems, hstate, hsecond, hfocus⟩

/-- Every reachable navigator state satisfies the invariant. -/
theorem reachable_navInv {contract : List (String × ItemOrMap)} {s : StatefulList}
    (h : Reachable contract s) : NavInv contract s := by
  induction h with
  | init s hs => exact navInv_init hs
  | step c s t hr hst ih =>
      cases c with
      | moveNext => exact navInv_next ih hst
      | movePrevious => exact navInv_previous ih hst
      | moveLeft =>
          rw [← Option.some.inj hst]
          exact navInv_go_left ih
      | moveRight =>
          rw [← Option.some.inj hst]
          exact navInv_go_right ih

/-- A value returned by `stateGet` is stored in the contract. -/
theorem stateGet_entry {st : List (String × ItemOrMap)} {key : String}
    {v : ItemOrMap} (h : stateGet st key = some v) : ∃ k, (k, v) ∈ st := by
  induction st with
  | nil => simp [stateGet] at h
  | cons p rest ih =>
      rw [stateGet] at h
      by_cases hk : p.1 = key
      · rw [if_pos hk] at h
        exact ⟨p.1, by rw [← Option.some.inj h]; simp⟩
      · rw [if_neg hk] at h
        obtain ⟨k, hmem⟩ := ih h
        exact ⟨k, List.mem_cons_of_mem _ hmem⟩

/-- After a successful `update_second_list`, the secondary pane matches the
recompute rule for the value addressed by the (unchanged) primary cursor. -/
theorem secondary_rule_of_update {contract : List (String × ItemOrMap)}
    {s' t : StatefulList} (h : update_second_list contract s' = some t) :
    ∀ i key v, t.state = some i → t.items.get? i = some key →
      stateGet contract key = some v →
      ((∃ m, v = ItemOrMap.map m ∧ t.second_items = m.map Prod.fst ∧
          t.second_state = some 0) ∨
       (∃ x, v = ItemOrMap.item x ∧ t.second_items = [] ∧
          t.second_state = none)) := by
  obtain ⟨i0, key0, value0, hsel0, hkey0, hval0, hst, hit, _, hcase⟩ :=
    update_second_list_eq h
  intro i key v hselt hkeyt hvalt
  rw [hst, hsel0] at hselt
  obtain rfl := Option.some.inj hselt
  rw [hit, hkey0] at hkeyt
  obtain rfl := Option.some.inj hkeyt
  rw [hval0] at hvalt
  obtain rfl := Option.some.inj hvalt
  exact hcase

/-- Inversion for `next` with primary focus: the result is either the
cleared-selection state of the empty-list guard, or a secondary recompute
over some new primary index. -/
theorem next_primary_inv {contract : List (String × ItemOrMap)}
    {s t : StatefulList} (hcl : s.current_list = ListType.StateKeyList)
    (h : next contract s = some t) :
    t = { s with state := none, current_list := ListType.StateKeyList } ∨
    ∃ k, update_second_list contract
      { s with state := some k, current_list := ListType.StateKeyList } = some t := by
  simp only [next, hcl] at h
  by_cases hlen : s.items.length = 0
  · rw [if_pos hlen] at h
    exact Or.inl (Option.some.inj h).symm
  · rw [if_neg hlen] at h
    exact Or.inr ⟨_, h⟩

/-- Inversion for `previous` with primary focus: a successful result always
comes from a secondary recompute over some new primary index. -/
theorem previous_primary_inv {contract : List (String × ItemOrMap)}
    {s t : StatefulList} (hcl : s.current_list = ListType.StateKeyList)
    (h : previous contract s = some t) :
    ∃ k, update_second_list contract
      { s with state := some k, current_list := ListType.StateKeyList } = some t := by
  simp only [previous, hcl, Option.bind_eq_bind] at h
  cases hsel : s.state with
  | none =>
      simp only [hsel] at h
      exact ⟨0, h⟩
  | some i =>
      simp only [hsel] at h
      by_cases hi : i = 0
      · rw [if_pos hi] at h
        obtain ⟨k, _, hupd⟩ := Option.bind_eq_some.mp h
        exact ⟨k, hupd⟩
      · rw [if_neg hi] at h
        exact ⟨i - 1, h⟩

/-- `next` with secondary focus only updates the secondary selection. -/
theorem next_secondary_inv {contract : List (String × ItemOrMap)}
    {s t : StatefulList} (hcl : s.current_list = ListType.MapKeyList)
    (h : next contract s = some t) :
    ∃ o, t = { s with second_state := o, current_list := ListType.MapKeyList } := by
  simp only [next, hcl] at h
  by_cases hlen : s.second_items.length = 0
  · rw [if_pos hlen] at h
    exact ⟨none, (Option.some.inj h).symm⟩
  · rw [if_neg hlen] at h
    exact ⟨_, (Option.some.inj h).symm⟩

/-- `previous` with secondary focus only updates the secondary selection. -/
theorem previous_secondary_inv {contract : List (String × ItemOrMap)}
    {s t : StatefulList} (hcl : s.current_list = ListType.MapKeyList)
    (h : previous contract s = some t) :
    ∃ k, t = { s with second_state := some k, current_list := ListType.MapKeyList } := by
  simp only [previous, hcl, Option.bind_eq_bind] at h
  cases hsel : s.second_state with
  | none =>
      simp only [hsel] at h
      exact ⟨0, (Option.some.inj h).symm⟩
  | some i =>
      simp only [hsel] at h
      by_cases hi : i = 0
      · rw [if_pos hi] at h
        obtain ⟨k, _, hpure⟩ := Option.bind_eq_some.mp h
        exact ⟨k, (Option.some.inj hpure).symm⟩
      · rw [if_neg hi] at h
        exact ⟨i - 1, (Option.some.inj h).symm⟩

/-- Under `NoEmptyMaps`, a successful `update_second_list` leaves the
secondary selection in range. -/
theorem second_in_range_of_update {contract : List (String × ItemOrMap)}
    {s' t : StatefulList} (hnem : NoEmptyMaps contract)
    (h : update_second_list contract s' = some t) :
    ∀ j, t.second_state = some j → j < t.second_items.length := by
  obtain ⟨i, key, value, _, _, hval, _, _, _, hcase⟩ := update_second_list_eq h
  rcases hcase with ⟨m, hm, hsi, hss⟩ | ⟨v, hv, hsi, hss⟩
  · intro j hj
    rw [hss] at hj
    obtain rfl := Option.some.inj hj.symm
    rw [hsi]
    subst hm
    obtain ⟨k, hmem⟩ := stateGet_entry hval
    have hne : m ≠ [] := hnem (k, ItemOrMap.map m) hmem
    simpa [List.length_pos] using hne
  · intro j hj
    rw [hss] at hj
    cases hj

/-- Under `NoEmptyMaps`, every reachable state keeps the secondary selection
in range (the half of the index invariant that fails on empty maps). -/
theorem reachable_second_in_range {contract : List (String × ItemOrMap)}
    (hnem : NoEmptyMaps contract) {s : StatefulList} (h : Reachable contract s) :
    ∀ j, s.second_state = some j → j < s.second_items.length := by
  induction h with
  | init s hs => exact second_in_range_of_update hnem hs
  | step c s t hr hst ih =>
      have hinv := reachable_navInv hr
      cases c with
      | moveNext =>
          cases hcl : s.current_list with
          | StateKeyList =>
              rcases next_primary_inv hcl hst with hteq | ⟨k, hupd⟩
              · subst hteq
                exact ih
              · exact second_in_range_of_update hnem hupd
          | MapKeyList =>
              obtain ⟨i, hcur, hlt⟩ := navInv_focusedCursor hinv
              obtain ⟨t', ht', _, hclt', hlent', hcurt'⟩ := next_spec hinv hcur hlt
              have hst' : next contract s = some t := hst
              rw [hst'] at ht'
              obtain rfl := Option.some.inj ht'
              intro j hj
              have hcurm : focusedCursor t = t.second_state := by
                simp only [focusedCursor, hclt', hcl]
              have hlenm : focusedLen t = t.second_items.length := by
                simp only [focusedLen, hclt', hcl]
              rw [hcurm, hj] at hcurt'
              obtain rfl := Option.some.inj hcurt'
              rw [← hlenm, hlent']
              exact Nat.mod_lt _ (Nat.lt_of_le_of_lt (Nat.zero_le i) hlt)
      | movePrevious =>
          cases hcl : s.current_list with
          | StateKeyList =>
              obtain ⟨k, hupd⟩ := previous_primary_inv hcl hst
              exact second_in_range_of_update hnem hupd
          | MapKeyList =>
              obtain ⟨i, hcur, hlt⟩ := navInv_focusedCursor hinv
              obtain ⟨t', ht', _, hclt', hlent', hcurt'⟩ := previous_spec hinv hcur hlt
              have hst' : previous contract s = some t := hst
              rw [hst'] at ht'
              obtain rfl := Option.some.inj ht'
              intro j hj
              have hcurm : focusedCursor t = t.second_state := by
                simp only [focusedCursor, hclt', hcl]
              have hlenm : focusedLen t = t.second_items.length := by
                simp only [focusedLen, hclt', hcl]
              rw [hcurm, hj] at hcurt'
              obtain rfl := Option.some.inj hcurt'
              rw [← hlenm, hlent']
              split <;> omega
      | moveLeft =>
          have hst' : go_left s = t := Option.some.inj hst
          subst hst'
          intro j hj
          simp only [go_left] at hj ⊢
          by_cases hc : s.current_list = ListType.MapKeyList
          · rw [if_pos hc] at hj ⊢
            exact ih j hj
          · rw [if_neg hc] at hj ⊢
            exact ih j hj
      | moveRight =>
          have hst' : go_right s = t := Option.some.inj hst
          subst hst'
          intro j hj
          simp only [go_right] at hj ⊢
          by_cases hc : s.current_list = ListType.StateKeyList ∧ s.second_items ≠ []
          · rw [if_pos hc] at hj ⊢
            exact ih j hj
          · rw [if_neg hc] at hj ⊢
            exact ih j hj

/-- Wraparound arithmetic: one step forward then one step back. -/
theorem wrap_roundtrip {i n : Nat} (h : i < n) :
    (if (i + 1) % n = 0 then n - 1 else (i + 1) % n - 1) = i := by
  rcases Nat.lt_or_ge (i + 1) n with hlt | hge
  · rw [Nat.mod_eq_of_lt hlt]
    rw [if_neg (Nat.succ_ne_zero i)]
    omega
  · have hn : i + 1 = n := by omega
    rw [hn, Nat.mod_self, if_pos rfl]
    omega

/-- Iterating `next` from a reachable state: `k` successful steps advance the
focused cursor by `k` modulo the focused length, never panicking. -/
theorem nextN_cursor_aux {contract : List (String × ItemOrMap)} :
    ∀ (k : Nat) (s : StatefulList) (i : Nat), Reachable contract s →
      focusedCursor s = some i → i < focusedLen s →
      ∃ t, nextN contract k s = some t ∧ Reachable contract t ∧
        t.current_list = s.current_list ∧ focusedLen t = focusedLen s ∧
        focusedCursor t = some ((i + k) % focusedLen s) := by
  intro k
  induction k with
  | zero =>
      intro s i hr hcur hlt
      refine ⟨s, rfl, hr, rfl, rfl, ?_⟩
      rw [hcur, Nat.add_zero, Nat.mod_eq_of_lt hlt]
  | succ k ih =>
      intro s i hr hcur hlt
      have hinv := reachable_navInv hr
      obtain ⟨t, ht, _, hclt, hlent, hcurt⟩ := next_spec hinv hcur hlt
      have hrt : Reachable contract t := Reachable.step Command.moveNext s t hr ht
      have hpos : 0 < focusedLen s := Nat.lt_of_le_of_lt (Nat.zero_le i) hlt
      have hltt : (i + 1) % focusedLen s < focusedLen s := Nat.mod_lt _ hpos
      obtain ⟨u, hu, hru, hclu, hlenu, hcuru⟩ :=
        ih t ((i + 1) % focusedLen s) hrt (by rw [hcurt]) (by rw [hlent]; exact hltt)
      refine ⟨u, ?_, hru, hclu.trans hclt, hlenu.trans hlent, ?_⟩
      · rw [nextN, ht, Option.some_bind]
        exact hu
      · rw [hcuru, hlent]
        rw [Nat.mod_add_mod]
        congr 2
        omega

/-! ## Claim theorems -/

/-- C1: the claim states that `move_previous` on an empty focused list is a
no-op on the selection, never underflows, and keeps a `None` selection
`None`. The code's `previous` lacks the empty-list guard that `next` has:
on an empty secondary-focused list it turns a `None` selection into
`Some 0`, and with a selection present it underflows `list_len - 1`
(a panic, modelled `none`); on an empty primary-focused list it panics
inside the recompute. This theorem evaluates `previous` at those explicit
failing inputs. -/
theorem C1_previous_empty_list_eval :
    previous [] sC1a = some sC1b ∧
    previous [] sC1b = none ∧
    previous [] sC1c = none := by
  refine ⟨?_, ?_, ?_⟩ <;> rfl

/-- C2: the claim states that construction from an empty top-level key list
succeeds with `primary_selected = None`. The code unconditionally selects
`Some(0)` and recomputes the secondary list, which indexes `items[0]` of the
empty list and panics (modelled `none`). The non-empty half of the claim is
evaluated on the specification's sample tree. -/
theorem C2_construct_empty_eval :
    app_new [] = none ∧ app_new cTest = some sTest := by
  exact ⟨rfl, rfl⟩

/-- C3 (counterexample): over `cEmptyMap` (a single key holding a `Map` with
zero entries) construction already yields a reachable state whose secondary
selection is `Some 0` while the secondary key list is empty, refuting the
claimed index invariant as stated. -/
theorem C3_counterexample_empty_map :
    Reachable cEmptyMap sEmptyMap ∧ sEmptyMap.second_state = some 0 ∧
    sEmptyMap.second_items.length = 0 :=
  ⟨Reachable.init sEmptyMap rfl, rfl, rfl⟩

/-- C3 (amended): in every reachable state a present primary index is always
within the primary key list, unconditionally; and, provided no value stored
in the tree is a `Map` with zero entries, a present secondary index is
always within the secondary key list. -/
theorem C3_indices_in_range {contract : List (String × ItemOrMap)}
    {s : StatefulList} (h : Reachable contract s) :
    (∀ i, s.state = some i → i < s.items.length) ∧
    (NoEmptyMaps contract →
      ∀ j, s.second_state = some j → j < s.second_items.length) := by
  refine ⟨?_, fun hnem => reachable_second_in_range hnem h⟩
  intro i hi
  obtain ⟨_, ⟨i0, hsel, hlt⟩, _, _⟩ := reachable_navInv h
  rw [hsel] at hi
  obtain rfl := Option.some.inj hi
  exact hlt

/-- C3 (witness): the amended invariant applied to the sample tree, whose
maps are all non-empty, at the constructed state; the secondary half's
proviso is discharged by evaluation. -/
theorem C3_indices_in_range_witness :
    Reachable cTest sTest ∧ NoEmptyMaps cTest ∧
    ((∀ i, sTest.state = some i → i < sTest.items.length) ∧
     (NoEmptyMaps cTest →
       ∀ j, sTest.second_state = some j → j < sTest.second_items.length)) :=
  ⟨Reachable.init sTest rfl, by decide,
    @C3_indices_in_range cTest sTest (Reachable.init sTest rfl)⟩

/-- C4 (counterexample): at the reachable state over `cEmptyMap` the selected
primary key addresses an empty `Map`, and `resolved_value` panics (`none`)
instead of reporting the "no selection" sentinel the claim requires. -/
theorem C4_counterexample_empty_map :
    Reachable cEmptyMap sEmptyMap ∧
    stateGet cEmptyMap "x" = some (ItemOrMap.map []) ∧
    resolved_value cEmptyMap sEmptyMap = none ∧
    resolved_value cEmptyMap sEmptyMap ≠ some "NO KEY SELECTED" :=
  ⟨Reachable.init sEmptyMap rfl, rfl, rfl, by decide⟩

/-- C4 (amended): in every navigator state whose selected primary key
addresses a `Map` with zero entries, `resolved_value` fails (an unwrap or
index panic, modelled `none`); it does not produce the sentinel. -/
theorem C4_resolved_value_empty_map_fails {contract : List (String × ItemOrMap)}
    {s : StatefulList} {i : Nat} {key : String}
    (hsel : s.state = some i) (hkey : s.items.get? i = some key)
    (hval : stateGet contract key = some (ItemOrMap.map [])) :
    resolved_value contract s = none := by
  cases hss : s.second_state with
  | none =>
      simp only [resolved_value, hsel, hkey, hval, hss, Option.bind_eq_bind,
        Option.some_bind, Option.none_bind]
  | some j =>
      cases hk2 : s.second_items.get? j with
      | none =>
          simp only [resolved_value, hsel, hkey, hval, hss, hk2,
            Option.bind_eq_bind, Option.some_bind, Option.none_bind]
      | some k2 =>
          simp only [resolved_value, hsel, hkey, hval, hss, hk2,
            Option.bind_eq_bind, Option.some_bind, mapGet]

/-- C4 (witness): the amended statement applied at the concrete empty-map
state. -/
theorem C4_resolved_value_empty_map_witness :
    sEmptyMap.state = some 0 ∧ sEmptyMap.items.get? 0 = some "x" ∧
    stateGet cEmptyMap "x" = some (ItemOrMap.map []) ∧
    resolved_value cEmptyMap sEmptyMap = none :=
  ⟨rfl, rfl, rfl, C4_resolved_value_empty_map_fails rfl rfl rfl⟩

/-- C5: after construction, or after a `next`/`previous` issued with primary
focus, the secondary pane satisfies the recompute rule for the value now
addressed by the primary selection: a `Map` yields exactly its key list in
insertion order with selection `Some 0` (unconditionally), an `Item` yields
an empty list with no selection. -/
theorem C5_secondary_recompute {contract : List (String × ItemOrMap)}
    {s t : StatefulList} {its : List String}
    (h : with_items contract its = some t ∨
         (s.current_list = ListType.StateKeyList ∧ next contract s = some t) ∨
         (s.current_list = ListType.StateKeyList ∧ previous contract s = some t)) :
    ∀ i key v, t.state = some i → t.items.get? i = some key →
      stateGet contract key = some v →
      ((∃ m, v = ItemOrMap.map m ∧ t.second_items = m.map Prod.fst ∧
          t.second_state = some 0) ∨
       (∃ x, v = ItemOrMap.item x ∧ t.second_items = [] ∧
          t.second_state = none)) := by
  rcases h with h | ⟨hcl, h⟩ | ⟨hcl, h⟩
  · exact secondary_rule_of_update h
  · rcases next_primary_inv hcl h with hteq | ⟨k, hupd⟩
    · subst hteq
      intro i key v hsel
      simp at hsel
    · exact secondary_rule_of_update hupd
  · obtain ⟨k, hupd⟩ := previous_primary_inv hcl h
    exact secondary_rule_of_update hupd

/-- C5 (witness): the recompute rule observed on the sample tree right after
construction, where the selected key `x` holds a two-entry map. -/
theorem C5_secondary_recompute_witness :
    with_items cTest ["x", "y"] = some sTest ∧
    sTest.state = some 0 ∧ sTest.items.get? 0 = some "x" ∧
    stateGet cTest "x" = some (ItemOrMap.map [("a", "1"), ("b", "2")]) ∧
    ((∃ m, ItemOrMap.map [("a", "1"), ("b", "2")] = ItemOrMap.map m ∧
        sTest.second_items = m.map Prod.fst ∧ sTest.second_state = some 0) ∨
     (∃ x, ItemOrMap.map [("a", "1"), ("b", "2")] = ItemOrMap.item x ∧
        sTest.second_items = [] ∧ sTest.second_state = none)) :=
  ⟨rfl, rfl, rfl, rfl,
    @C5_secondary_recompute cTest sTest sTest ["x", "y"] (Or.inl rfl)
      0 "x" (ItemOrMap.map [("a", "1"), ("b", "2")]) rfl rfl rfl⟩

/-- C6: in every reachable navigator state, secondary focus implies a
non-empty secondary key list; moreover `go_right` leaves the focus (indeed
the whole state) unchanged whenever the secondary list is empty, for any
focus state. -/
theorem C6_secondary_focus_nonempty {contract : List (String × ItemOrMap)}
    {s : StatefulList} (h : Reachable contract s) :
    (s.current_list = ListType.MapKeyList → s.second_items ≠ []) ∧
    (∀ t : StatefulList, t.second_items = [] → go_right t = t) := by
  refine ⟨(reachable_navInv h).2.2.2, ?_⟩
  intro t ht
  rw [go_right, if_neg (fun hc => hc.2 ht)]

/-- C6 (witness): the invariant applied at the constructed state of the
sample tree. -/
theorem C6_secondary_focus_nonempty_witness :
    Reachable cTest sTest ∧
    ((sTest.current_list = ListType.MapKeyList → sTest.second_items ≠ []) ∧
     (∀ t : StatefulList, t.second_items = [] → go_right t = t)) :=
  ⟨Reachable.init sTest rfl,
    @C6_secondary_focus_nonempty cTest sTest (Reachable.init sTest rfl)⟩

/-- C7: `resolved_value` returns the "NO KEY SELECTED" sentinel when no
primary selection exists; the scalar of an addressed `Item` regardless of
the secondary selection; and, for an addressed `Map`, the value stored
under `secondary_keys[secondary_selected]`. -/
theorem C7_resolved_value_cases (contract : List (String × ItemOrMap))
    (s : StatefulList) :
    (s.state = none → resolved_value contract s = some "NO KEY SELECTED") ∧
    (∀ i key v, s.state = some i → s.items.get? i = some key →
        stateGet contract key = some (ItemOrMap.item v) →
        resolved_value contract s = some v) ∧
    (∀ i key m j k2, s.state = some i → s.items.get? i = some key →
        stateGet contract key = some (ItemOrMap.map m) →
        s.second_state = some j → s.second_items.get? j = some k2 →
        resolved_value contract s = mapGet m k2) := by
  refine ⟨?_, ?_, ?_⟩
  · intro h
    simp only [resolved_value, h]
  · intro i key v hsel hkey hval
    simp only [resolved_value, hsel, hkey, hval, Option.bind_eq_bind,
      Option.some_bind, pure]
  · intro i key m j k2 hsel hkey hval hss hk2
    simp only [resolved_value, hsel, hkey, hval, hss, hk2,
      Option.bind_eq_bind, Option.some_bind]

/-- C7 (witness): the `Map` case observed on the sample tree at the
constructed state, where the resolution yields `"1"`. -/
theorem C7_resolved_value_cases_witness :
    sTest.state = some 0 ∧ sTest.items.get? 0 = some "x" ∧
    stateGet cTest "x" = some (ItemOrMap.map [("a", "1"), ("b", "2")]) ∧
    sTest.second_state = some 0 ∧ sTest.second_items.get? 0 = some "a" ∧
    resolved_value cTest sTest = mapGet [("a", "1"), ("b", "2")] "a" ∧
    resolved_value cTest sTest = some "1" :=
  ⟨rfl, rfl, rfl, rfl, rfl,
    (C7_resolved_value_cases cTest sTest).2.2 0 "x" [("a", "1"), ("b", "2")]
      0 "a" rfl rfl rfl rfl rfl, rfl⟩

/-- C8: from every reachable state, `next` then `previous` (focus is
unchanged by both) succeed and return the focused cursor to its original
index; with primary focus the primary index itself round-trips exactly
(the secondary pane is recomputed as a side effect, which this statement
does not constrain). -/
theorem C8_next_previous_roundtrip {contract : List (String × ItemOrMap)}
    {s : StatefulList} (h : Reachable contract s) :
    ∃ t u, next contract s = some t ∧ previous contract t = some u ∧
      focusedCursor u = focusedCursor s ∧
      (s.current_list = ListType.StateKeyList → u.state = s.state) := by
  have hinv := reachable_navInv h
  obtain ⟨i, hcur, hlt⟩ := navInv_focusedCursor hinv
  obtain ⟨t, ht, htinv, hclt, hlent, hcurt⟩ := next_spec hinv hcur hlt
  have hpos : 0 < focusedLen s := Nat.lt_of_le_of_lt (Nat.zero_le i) hlt
  have hlt2 : (i + 1) % focusedLen s < focusedLen s := Nat.mod_lt _ hpos
  obtain ⟨u, hu, huinv, hclu, hlenu, hcuru⟩ :=
    previous_spec htinv hcurt (by rw [hlent]; exact hlt2)
  rw [hlent] at hcuru
  refine ⟨t, u, ht, hu, ?_, ?_⟩
  · rw [hcuru, hcur]
    congr 1
    exact wrap_roundtrip hlt
  · intro hcl
    have h1 : focusedCursor u = u.state := by
      simp only [focusedCursor, hclu, hclt, hcl]
    have h2 : focusedCursor s = s.state := by
      simp only [focusedCursor, hcl]
    rw [← h1, ← h2, hcuru, hcur]
    congr 1
    exact wrap_roundtrip hlt

/-- C8 (witness): the round trip observed from the constructed state of the
sample tree. -/
theorem C8_next_previous_roundtrip_witness :
    Reachable cTest sTest ∧
    (∃ t u, next cTest sTest = some t ∧ previous cTest t = some u ∧
      focusedCursor u = focusedCursor sTest ∧
      (sTest.current_list = ListType.StateKeyList → u.state = sTest.state)) :=
  ⟨Reachable.init sTest rfl,
    C8_next_previous_roundtrip (Reachable.init sTest rfl)⟩

/-- C9: from every reachable state whose focused list has length `n > 0` and
which has a current selection `i`, applying `next` exactly `n` times
succeeds and returns the focused cursor to `i`; a single `next` moves the
cursor to `(i + 1) % n`. -/
theorem C9_wraparound {contract : List (String × ItemOrMap)}
    {s : StatefulList} {n i : Nat} (h : Reachable contract s)
    (hn : focusedLen s = n) (hpos : 0 < n) (hcur : focusedCursor s = some i) :
    (∃ t, nextN contract n s = some t ∧ focusedCursor t = some i) ∧
    (∀ t, next contract s = some t → focusedCursor t = some ((i + 1) % n)) := by
  have hinv := reachable_navInv h
  have hlt : i < focusedLen s := by
    obtain ⟨i0, hcur0, hlt0⟩ := navInv_focusedCursor hinv
    rw [hcur0] at hcur
    obtain rfl := Option.some.inj hcur
    exact hlt0
  constructor
  · obtain ⟨t, ht, _, _, _, hcurt⟩ := nextN_cursor_aux n s i h hcur hlt
    refine ⟨t, ht, ?_⟩
    rw [hcurt, hn, Nat.add_mod_right, Nat.mod_eq_of_lt (hn ▸ hlt)]
  · intro t ht
    obtain ⟨t', ht', _, _, _, hcurt'⟩ := next_spec hinv hcur hlt
    rw [ht] at ht'
    obtain rfl := Option.some.inj ht'
    rw [hcurt', hn]

/-- C9 (witness): the two-element primary list of the sample tree cycles
back to index 0 after two `next` commands. -/
theorem C9_wraparound_witness :
    Reachable cTest sTest ∧ focusedLen sTest = 2 ∧ 0 < 2 ∧
    focusedCursor sTest = some 0 ∧
    ((∃ t, nextN cTest 2 sTest = some t ∧ focusedCursor t = some 0) ∧
     (∀ t, next cTest sTest = some t → focusedCursor t = some ((0 + 1) % 2))) :=
  ⟨Reachable.init sTest rfl, rfl, by decide, rfl,
    C9_wraparound (Reachable.init sTest rfl) rfl (by decide) rfl⟩

/-- C10: `next`/`previous` with secondary focus leave the primary key list
and primary selection unchanged; `go_left` and `go_right` leave both key
lists and both selections unchanged (they touch only the focus field). -/
theorem C10_frame (contract : List (String × ItemOrMap)) (s t : StatefulList) :
    (s.current_list = ListType.MapKeyList → next contract s = some t →
        t.items = s.items ∧ t.state = s.state) ∧
    (s.current_list = ListType.MapKeyList → previous contract s = some t →
        t.items = s.items ∧ t.state = s.state) ∧
    ((go_left s).items = s.items ∧ (go_left s).state = s.state ∧
      (go_left s).second_items = s.second_items ∧
      (go_left s).second_state = s.second_state) ∧
    ((go_right s).items = s.items ∧ (go_right s).state = s.state ∧
      (go_right s).second_items = s.second_items ∧
      (go_right s).second_state = s.second_state) := by
  refine ⟨?_, ?_, ?_, ?_⟩
  · intro hcl h
    obtain ⟨o, rfl⟩ := next_secondary_inv hcl h
    exact ⟨rfl, rfl⟩
  · intro hcl h
    obtain ⟨k, rfl⟩ := previous_secondary_inv hcl h
    exact ⟨rfl, rfl⟩
  · by_cases hc : s.current_list = ListType.MapKeyList
    · rw [go_left, if_pos hc]
      exact ⟨rfl, rfl, rfl, rfl⟩
    · rw [go_left, if_neg hc]
      exact ⟨rfl, rfl, rfl, rfl⟩
  · by_cases hc : s.current_list = ListType.StateKeyList ∧ s.second_items ≠ []
    · rw [go_right, if_pos hc]
      exact ⟨rfl, rfl, rfl, rfl⟩
    · rw [go_right, if_neg hc]
      exact ⟨rfl, rfl, rfl, rfl⟩

/-- C10 (witness): the frame conditions observed with the secondary pane
focused over the sample tree. -/
theorem C10_frame_witness :
    sMap.current_list = ListType.MapKeyList ∧ next cTest sMap = some sMapNext ∧
    (sMapNext.items = sMap.items ∧ sMapNext.state = sMap.state) ∧
    ((go_left sMap).items = sMap.items ∧ (go_left sMap).state = sMap.state ∧
      (go_left sMap).second_items = sMap.second_items ∧
      (go_left sMap).second_state = sMap.second_state) :=
  ⟨rfl, by rfl, (C10_frame cTest sMap sMapNext).1 rfl (by rfl),
    (C10_frame cTest sMap sMapNext).2.2.1⟩
